import Mathlib

/-!
Verification of the gemoji-gnome emoji-picker core subsystem.

Shallow embedding of the JavaScript sources:
  * `core/searchManager.js`   — `SearchManager.filterEmojis`
  * `core/usageTracker.js`    — `UsageTracker` (frequency map, frequently-used projection)
  * `core/emojiData.js`       — `collectCategories`
  * `core/skinToneSelector.js`— `SkinToneSelector.#applyTone`
  * category manager (tab/scroll synchronisation, programmatic-scroll guard)

JavaScript strings are modelled as lists of Unicode scalar values
(`List Char`); every string operation used by the sources
(first-occurrence `String.replace`, `String.includes`, concatenation,
`join`, `toLowerCase`) respects code-point boundaries on well-formed
strings, so the code-point model is faithful.  JS `Map`s are modelled
as association lists in insertion order, which is exactly the
iteration order the sources rely on.
-/

namespace Gemoji

/-- An emoji record as produced by the loader (`core/emojiData.js`):
`{ emoji, description, category, aliases, tags }`. -/
structure EmojiRecord where
  emoji : List Char
  description : List Char
  category : List Char
  aliases : List (List Char)
  tags : List (List Char)
deriving DecidableEq, Repr

/-- Constant `MAX_VISIBLE_EMOJIS` from `core/constants.js`. -/
def MAX_VISIBLE_EMOJIS : Nat := 360

/-- The haystack built inside `SearchManager.filterEmojis`:
`[item.emoji, item.description, ...aliases, ...tags].filter(Boolean).join(' ').toLowerCase()`.
`filter(Boolean)` drops empty strings (and absent fields, which read back
as empty after the loader's defaulting). -/
def searchHaystack (r : EmojiRecord) : List Char :=
  (List.intercalate [' ']
      ((r.emoji :: r.description :: (r.aliases ++ r.tags)).filter
        (fun s => !s.isEmpty))).map Char.toLower

/-- Test `fields.includes(query)` in `filterEmojis`: `query` occurs as a
contiguous substring of the haystack. -/
def matchesQuery (q : List Char) (r : EmojiRecord) : Bool :=
  decide (q <:+: searchHaystack r)

/-- The accumulation loop of `filterEmojis`: push each matching item and
break as soon as `results.length >= MAX_VISIBLE_EMOJIS`.  `count` is the
number of results already pushed. -/
def filterLoop (q : List Char) : List EmojiRecord → Nat → List EmojiRecord
  | [], _ => []
  | item :: rest, count =>
    if matchesQuery q item then
      if count + 1 ≥ MAX_VISIBLE_EMOJIS then [item]
      else item :: filterLoop q rest (count + 1)
    else filterLoop q rest count

/-- Embedding of `SearchManager.filterEmojis(query, emojiData)`: empty query
returns the data unchanged, otherwise the capped accumulation loop runs. -/
def filterEmojis (q : List Char) (emojiData : List EmojiRecord) : List EmojiRecord :=
  if q.isEmpty then emojiData else filterLoop q emojiData 0

theorem filterLoop_eq_filter_take (q : List Char) (data : List EmojiRecord) :
    ∀ count : Nat, count < MAX_VISIBLE_EMOJIS →
      filterLoop q data count =
        (data.filter (fun r => matchesQuery q r)).take (MAX_VISIBLE_EMOJIS - count) := by
  induction data with
  | nil => intro count _; simp [filterLoop]
  | cons item rest ih =>
    intro count hcount
    by_cases hm : matchesQuery q item
    · by_cases hcap : count + 1 ≥ MAX_VISIBLE_EMOJIS
      · have heq : MAX_VISIBLE_EMOJIS - count = 1 := by omega
        simp [filterLoop, hm, hcap, List.filter_cons, heq]
      · have hlt : count + 1 < MAX_VISIBLE_EMOJIS := by omega
        have hsub : MAX_VISIBLE_EMOJIS - count = (MAX_VISIBLE_EMOJIS - (count + 1)) + 1 := by
          omega
        simp [filterLoop, hm, hcap, List.filter_cons, hsub, ih (count + 1) hlt]
    · simp [filterLoop, hm, List.filter_cons, ih count hcount]

/-- C1: for every dataset and query, an empty query returns exactly the input
records (same order, same length); a non-empty query returns exactly the first
matching records in dataset order — a record matches iff the lowercase
space-joined haystack of glyph, description, aliases and tags (skipping empty
fields) contains the query as a substring — and the result never exceeds the
cap of 360 records. -/
theorem filterEmojis_spec (q : List Char) (data : List EmojiRecord) :
    (q = [] → filterEmojis q data = data) ∧
    (q ≠ [] →
      filterEmojis q data =
          (data.filter (fun r => matchesQuery q r)).take MAX_VISIBLE_EMOJIS ∧
      (filterEmojis q data).length ≤ MAX_VISIBLE_EMOJIS) := by
  constructor
  · intro h; subst h; simp [filterEmojis]
  · intro h
    have hne : q.isEmpty = false := by
      cases q with
      | nil => exact absurd rfl h
      | cons a l => rfl
    have heq : filterEmojis q data =
        (data.filter (fun r => matchesQuery q r)).take MAX_VISIBLE_EMOJIS := by
      have h0 : (0 : Nat) < MAX_VISIBLE_EMOJIS := by norm_num [MAX_VISIBLE_EMOJIS]
      have := filterLoop_eq_filter_take q data 0 h0
      simpa [filterEmojis, hne] using this
    refine ⟨heq, ?_⟩
    rw [heq]
    exact List.length_take_le _ _

/-- Sample record used by the witnesses. -/
def wrec1 : EmojiRecord :=
  ⟨['😀'], "grinning face".toList, "Smileys & Emotion".toList,
    ["grinning".toList], ["smile".toList]⟩

/-- Witness for `filterEmojis_spec` at a concrete query and dataset. -/
theorem filterEmojis_spec_witness :
    (filterEmojis [] [wrec1] = [wrec1]) ∧
    (filterEmojis ['g', 'r', 'i', 'n'] [wrec1] =
        (([wrec1]).filter (fun r => matchesQuery ['g', 'r', 'i', 'n'] r)).take
          MAX_VISIBLE_EMOJIS ∧
      (filterEmojis ['g', 'r', 'i', 'n'] [wrec1]).length ≤ MAX_VISIBLE_EMOJIS) :=
  ⟨(filterEmojis_spec [] [wrec1]).1 rfl,
   (filterEmojis_spec ['g', 'r', 'i', 'n'] [wrec1]).2 (by decide)⟩

/-- A glyph→count frequency map, modelled as the JS `Map` entry list in
insertion order (`core/usageTracker.js`, `this.#usageCount`). -/
abbrev UsageMap := List (List Char × Nat)

/-- Read `this.#usageCount.get(emoji) || 0`. -/
def usageGet (m : UsageMap) (g : List Char) : Nat :=
  match m.find? (fun p => p.1 == g) with
  | some p => p.2
  | none => 0

/-- Write `this.#usageCount.set(emoji, v)`: an existing key keeps its
position and gets the new value, a fresh key is appended (JS `Map`
insertion-order semantics). -/
def usageSet : UsageMap → List Char → Nat → UsageMap
  | [], g, v => [(g, v)]
  | (k, c) :: rest, g, v =>
    if k = g then (g, v) :: rest else (k, c) :: usageSet rest g v

/-- In-memory effect of `UsageTracker.trackUsage(emoji)`:
`const currentCount = map.get(emoji) || 0; map.set(emoji, currentCount + 1)`. -/
def trackUsage (m : UsageMap) (g : List Char) : UsageMap :=
  usageSet m g (usageGet m g + 1)

/-- Run a sequence of `trackUsage` calls on the fresh empty map. -/
def runUsage (tr : List (List Char)) : UsageMap := tr.foldl trackUsage []

theorem usageGet_usageSet_self (m : UsageMap) (g : List Char) (v : Nat) :
    usageGet (usageSet m g v) g = v := by
  induction m with
  | nil => simp [usageSet, usageGet]
  | cons p rest ih =>
    obtain ⟨k, c⟩ := p
    by_cases hk : k = g
    · subst hk; simp [usageSet, usageGet]
    · simpa [usageSet, hk, usageGet] using ih

theorem usageGet_usageSet_ne (m : UsageMap) (g g' : List Char) (v : Nat)
    (h : g' ≠ g) : usageGet (usageSet m g v) g' = usageGet m g' := by
  induction m with
  | nil =>
    simp [usageSet, usageGet, Ne.symm h]
  | cons p rest ih =>
    obtain ⟨k, c⟩ := p
    by_cases hk : k = g
    · subst hk
      simp [usageSet, usageGet, Ne.symm h]
    · simp only [usageSet, hk, if_false]
      by_cases hk' : k = g'
      · subst hk'; simp [usageGet]
      · simpa [usageGet, hk'] using ih

theorem usageGet_trackUsage (m : UsageMap) (g g' : List Char) :
    usageGet (trackUsage m g) g' =
      if g' = g then usageGet m g + 1 else usageGet m g' := by
  by_cases h : g' = g
  · subst h; simp [trackUsage, usageGet_usageSet_self]
  · simp [trackUsage, h, usageGet_usageSet_ne m g g' _ h]

theorem usageGet_foldl (tr : List (List Char)) :
    ∀ (m : UsageMap) (g : List Char),
      usageGet (tr.foldl trackUsage m) g = usageGet m g + tr.count g := by
  induction tr with
  | nil => intro m g; simp
  | cons t ts ih =>
    intro m g
    rw [List.foldl_cons, ih, usageGet_trackUsage, List.count_cons]
    by_cases h : g = t
    · subst h; simp; omega
    · simp [h, Ne.symm h]

/-- C9: calling `trackSelection(g)` n times, possibly interleaved with calls
for other glyphs, yields an in-memory count of exactly n for g (the persist
timers never touch the in-memory map, so this is the settled value), and each
glyph's count is monotonically non-decreasing as further selections are
tracked. -/
theorem trackUsage_count_spec (tr extra : List (List Char)) (g : List Char) :
    usageGet (runUsage tr) g = tr.count g ∧
    usageGet (runUsage tr) g ≤ usageGet (runUsage (tr ++ extra)) g := by
  have h1 : usageGet (runUsage tr) g = tr.count g := by
    simpa [runUsage, usageGet] using usageGet_foldl tr [] g
  refine ⟨h1, ?_⟩
  have h2 : runUsage (tr ++ extra) = extra.foldl trackUsage (runUsage tr) := by
    simp [runUsage, List.foldl_append]
  rw [h2, usageGet_foldl]
  omega

/-- The glyph→record lookup built inside `getFrequentlyUsed`:
`for (const entry of emojiData) emojiMap.set(entry.emoji, entry)` followed by
`emojiMap.get(g)`.  A later duplicate glyph overwrites an earlier one, so the
fold keeps the LAST matching record. -/
def emojiMapGet (emojiData : List EmojiRecord) (g : List Char) : Option EmojiRecord :=
  emojiData.foldl (fun acc e => if e.emoji = g then some e else acc) none

/-- JS `Array.prototype.sort` with comparator `(a, b) => b[1] - a[1]`:
a stable sort by descending count (stable per ECMA-262). -/
def sortByCountDesc (l : UsageMap) : UsageMap :=
  l.mergeSort (fun a b => decide (b.2 ≤ a.2))

/-- Embedding of `UsageTracker.getFrequentlyUsed(emojiData, limit)`. -/
def getFrequentlyUsed (usage : UsageMap) (emojiData : List EmojiRecord)
    (limit : Nat) : List EmojiRecord :=
  if usage.isEmpty then []
  else
    ((sortByCountDesc usage).take limit).filterMap
      (fun p => emojiMapGet emojiData p.1)

theorem foldl_lookup_mem (g : List Char) :
    ∀ (data : List EmojiRecord) (acc : Option EmojiRecord) (e : EmojiRecord),
      data.foldl (fun acc e => if e.emoji = g then some e else acc) acc = some e →
      (e ∈ data ∧ e.emoji = g) ∨ acc = some e := by
  intro data
  induction data with
  | nil => intro acc e h; exact Or.inr h
  | cons d rest ih =>
    intro acc e h
    rcases ih _ e h with hmem | hacc
    · exact Or.inl ⟨List.mem_cons_of_mem _ hmem.1, hmem.2⟩
    · by_cases hd : d.emoji = g
      · simp only [hd, if_pos] at hacc
        have hde : d = e := by injection hacc
        subst hde
        exact Or.inl ⟨List.mem_cons_self _ _, hd⟩
      · simp only [hd, if_neg, if_false] at hacc
        exact Or.inr hacc

theorem emojiMapGet_mem (data : List EmojiRecord) (g : List Char)
    (e : EmojiRecord) (h : emojiMapGet data g = some e) :
    e ∈ data ∧ e.emoji = g := by
  rcases foldl_lookup_mem g data none e h with hm | habs
  · exact hm
  · cases habs

theorem getLast?_cons_eq_or (x : α) (l : List α) :
    (x :: l).getLast? = (l.getLast?).or (some x) := by
  cases l with
  | nil => rfl
  | cons y ys =>
    rw [List.getLast?_cons_cons]
    have hs : ((y :: ys).getLast?).isSome = true := by
      rw [List.getLast?_isSome]; simp
    cases h : (y :: ys).getLast? with
    | none => rw [h] at hs; cases hs
    | some z => rfl

theorem foldl_lookup_eq_getLast (g : List Char) :
    ∀ (data : List EmojiRecord) (acc : Option EmojiRecord),
      data.foldl (fun acc e => if e.emoji = g then some e else acc) acc =
        ((data.filter (fun e => decide (e.emoji = g))).getLast?).or acc := by
  intro data
  induction data with
  | nil => intro acc; rfl
  | cons d rest ih =>
    intro acc
    rw [List.foldl_cons, ih]
    by_cases hd : d.emoji = g
    · rw [List.filter_cons_of_pos (by simpa using hd), if_pos hd,
        getLast?_cons_eq_or, Option.or_assoc]
      rfl
    · rw [List.filter_cons_of_neg (by simpa using hd), if_neg hd]

/-- C8 (amended): the glyph lookup used by `getFrequentlyUsed` returns the
LAST record with that glyph in dataset order (every later `Map.set` with a
duplicate glyph overwrites the earlier entry), not the first. -/
theorem emojiMapGet_eq_getLast (data : List EmojiRecord) (g : List Char) :
    emojiMapGet data g =
      (data.filter (fun e => decide (e.emoji = g))).getLast? := by
  rw [emojiMapGet, foldl_lookup_eq_getLast, Option.or_none]

theorem usageGet_of_nodup (usage : UsageMap) (g : List Char) (c : Nat)
    (hnd : (usage.map Prod.fst).Nodup) (hmem : (g, c) ∈ usage) :
    usageGet usage g = c := by
  induction usage with
  | nil => cases hmem
  | cons p rest ih =>
    obtain ⟨k, v⟩ := p
    rcases List.mem_cons.1 hmem with heq | hrest
    · injection heq with h1 h2
      subst h1; subst h2
      simp [usageGet]
    · have hnd1 : (k :: rest.map Prod.fst).Nodup := by simpa using hnd
      have hk : k ≠ g := by
        intro hkg
        subst hkg
        exact (List.nodup_cons.1 hnd1).1 (List.mem_map.2 ⟨(k, c), hrest, rfl⟩)
      have hnd' : (rest.map Prod.fst).Nodup := (List.nodup_cons.1 hnd1).2
      simpa [usageGet, hk] using ih hnd' hrest

/-- C2: `frequentlyUsed(records, k)` returns at most k records, ordered by
descending tracked count, contains no record whose glyph is absent from the
dataset (dropped glyphs are silently skipped, not errors), and returns the
empty sequence when no usage has been recorded.  The hypothesis that usage
keys are distinct holds by construction: the map is a JS `Map`. -/
theorem getFrequentlyUsed_spec (usage : UsageMap) (data : List EmojiRecord)
    (k : Nat) (hnd : (usage.map Prod.fst).Nodup) :
    (getFrequentlyUsed usage data k).length ≤ k ∧
    ((getFrequentlyUsed usage data k).map
        (fun r => usageGet usage r.emoji)).Pairwise (· ≥ ·) ∧
    (∀ r ∈ getFrequentlyUsed usage data k,
      r.emoji ∈ data.map EmojiRecord.emoji) ∧
    (usage = [] → getFrequentlyUsed usage data k = []) := by
  by_cases husage : usage = []
  · subst husage
    refine ⟨by simp [getFrequentlyUsed], by simp [getFrequentlyUsed], ?_,
      fun _ => by simp [getFrequentlyUsed]⟩
    intro r hr
    simp [getFrequentlyUsed] at hr
  · have hne : usage.isEmpty = false := by
      cases usage with
      | nil => exact absurd rfl husage
      | cons a l => rfl
    have hunfold : getFrequentlyUsed usage data k =
        ((sortByCountDesc usage).take k).filterMap
          (fun p => emojiMapGet data p.1) := by
      rw [getFrequentlyUsed, hne]; rfl
    have hsub : ((sortByCountDesc usage).take k).Sublist (sortByCountDesc usage) :=
      List.take_sublist _ _
    have hmem_pairs : ∀ p ∈ (sortByCountDesc usage).take k, p ∈ usage := by
      intro p hp
      exact ((List.mergeSort_perm usage _).mem_iff).1 (List.Sublist.mem hp hsub)
    have hsort : (sortByCountDesc usage).Pairwise (fun a b => b.2 ≤ a.2) := by
      have htrans : ∀ a b c : List Char × Nat,
          decide (b.2 ≤ a.2) = true → decide (c.2 ≤ b.2) = true →
          decide (c.2 ≤ a.2) = true := by
        intro a b c h1 h2
        simp only [decide_eq_true_eq] at *
        omega
      have htotal : ∀ a b : List Char × Nat,
          (decide (b.2 ≤ a.2) || decide (a.2 ≤ b.2)) = true := by
        intro a b
        simp only [Bool.or_eq_true, decide_eq_true_eq]
        omega
      have := List.sorted_mergeSort htrans htotal usage
      exact this.imp (fun h => of_decide_eq_true h)
    have htake : ((sortByCountDesc usage).take k).Pairwise (fun a b => b.2 ≤ a.2) :=
      List.Pairwise.sublist hsub hsort
    refine ⟨?_, ?_, ?_, ?_⟩
    · rw [hunfold]
      calc (((sortByCountDesc usage).take k).filterMap
              (fun p => emojiMapGet data p.1)).length
          ≤ ((sortByCountDesc usage).take k).length :=
            List.length_filterMap_le _ _
        _ ≤ k := List.length_take_le _ _
    · rw [hunfold, List.pairwise_map, List.pairwise_filterMap]
      refine htake.imp_of_mem ?_
      intro p q hp hq hle r1 h1 r2 h2
      have e1 := emojiMapGet_mem data p.1 r1 h1
      have e2 := emojiMapGet_mem data q.1 r2 h2
      have hp' : usageGet usage p.1 = p.2 :=
        usageGet_of_nodup usage p.1 p.2 hnd (hmem_pairs p hp)
      have hq' : usageGet usage q.1 = q.2 :=
        usageGet_of_nodup usage q.1 q.2 hnd (hmem_pairs q hq)
      show usageGet usage r1.emoji ≥ usageGet usage r2.emoji
      rw [e1.2, e2.2, hp', hq']
      exact hle
    · intro r hr
      rw [hunfold] at hr
      rcases List.mem_filterMap.1 hr with ⟨p, _, hfp⟩
      have := emojiMapGet_mem data p.1 r hfp
      exact List.mem_map.2 ⟨r, this.1, rfl⟩
    · intro habs
      exact absurd habs husage

/-- Witness usage map for `getFrequentlyUsed_spec`. -/
def wUsage : UsageMap := [(['😀'], 2), (['🔥'], 5)]

/-- Witness dataset for `getFrequentlyUsed_spec`. -/
def wData : List EmojiRecord :=
  [⟨['😀'], "grinning face".toList, "Smileys & Emotion".toList, [], []⟩,
   ⟨['🔥'], "fire".toList, "Travel & Places".toList, [], []⟩]

/-- Witness for `getFrequentlyUsed_spec` at a concrete usage map and dataset. -/
theorem getFrequentlyUsed_spec_witness :
    (wUsage.map Prod.fst).Nodup ∧
    ((getFrequentlyUsed wUsage wData 2).length ≤ 2 ∧
     ((getFrequentlyUsed wUsage wData 2).map
        (fun r => usageGet wUsage r.emoji)).Pairwise (· ≥ ·) ∧
     (∀ r ∈ getFrequentlyUsed wUsage wData 2,
       r.emoji ∈ wData.map EmojiRecord.emoji) ∧
     (wUsage = [] → getFrequentlyUsed wUsage wData 2 = [])) :=
  ⟨by decide, getFrequentlyUsed_spec wUsage wData 2 (by decide)⟩

/-- First of two records sharing one glyph. -/
def dupFirst : EmojiRecord :=
  ⟨['😀'], "first copy".toList, "Smileys & Emotion".toList, [], []⟩

/-- Second of two records sharing one glyph. -/
def dupSecond : EmojiRecord :=
  ⟨['😀'], "second copy".toList, "Smileys & Emotion".toList, [], []⟩

/-- C8 counterexample: with two records sharing the glyph 😀, mapping a
tracked glyph back to a record returns the SECOND (last) record, so the claim
that lookup returns the first matching record in dataset order is false. -/
theorem frequentlyUsed_lookup_counterexample :
    getFrequentlyUsed [(['😀'], 1)] [dupFirst, dupSecond] 30 = [dupSecond] ∧
    dupSecond ≠ dupFirst := by
  constructor
  · show getFrequentlyUsed [(['😀'], 1)] [dupFirst, dupSecond] 30 = [dupSecond]
    rw [getFrequentlyUsed]
    simp only [List.isEmpty_cons, sortByCountDesc, List.mergeSort_singleton]
    rfl
  · decide

/-- State of the usage tracker together with its persistence side effects:
the in-memory map, the number of pending 500 ms save timers, and the sequence
of writes performed so far (each write records the map it serialized). -/
structure TrackerState where
  usage : UsageMap
  pendingSaves : Nat
  writes : List UsageMap
deriving DecidableEq, Repr

/-- Full effect of `UsageTracker.trackUsage(emoji)`: increment the in-memory
count, then `GLib.timeout_add(GLib.PRIORITY_LOW, 500, () => saveUsageData())`.
The source stores no timer id and cancels nothing, so every call adds one
more pending save timer. -/
def trackUsageEvent (s : TrackerState) (g : List Char) : TrackerState :=
  { s with usage := trackUsage s.usage g, pendingSaves := s.pendingSaves + 1 }

/-- One pending 500 ms timer fires: `saveUsageData()` serializes and writes
the current in-memory map, and the fired timer is no longer pending. -/
def fireSave (s : TrackerState) : TrackerState :=
  if s.pendingSaves = 0 then s
  else { s with pendingSaves := s.pendingSaves - 1, writes := s.writes ++ [s.usage] }

/-- Fresh tracker: empty map, no pending timers, no writes yet. -/
def initialTracker : TrackerState := ⟨[], 0, []⟩

/-- C3 evaluated at the failing input: `trackUsage` schedules one new save
timer per call without cancelling the pending one, so a burst of two
`trackSelection` calls inside the 500 ms window leaves two pending timers and
performs two persistence writes — not the single coalesced write the claim
(and the code's own `Debounce saves` comment) describe.  Both writes do carry
the final state of the burst, but one write per call is performed. -/
theorem trackUsage_write_per_call :
    (∀ s g, (trackUsageEvent s g).pendingSaves = s.pendingSaves + 1) ∧
    (trackUsageEvent (trackUsageEvent initialTracker ['😀']) ['😀']).pendingSaves = 2 ∧
    (fireSave (fireSave
        (trackUsageEvent (trackUsageEvent initialTracker ['😀']) ['😀']))).writes.length = 2 := by
  refine ⟨fun s g => rfl, rfl, rfl⟩

/-- The synthetic pseudo-category name. -/
def catFrequentlyUsed : List Char := "Frequently Used".toList

/-- The predefined category ordering hard-coded in `collectCategories`
(`core/emojiData.js`). -/
def orderedCategories : List (List Char) :=
  ["Frequently Used", "Smileys & Emotion", "People & Body", "Animals & Nature",
   "Food & Drink", "Travel & Places", "Activities", "Objects", "Symbols",
   "Flags"].map String.toList

/-- Embedding of `collectCategories(emojiData)` in `core/emojiData.js`: keep
the predefined ordering filtered to the truthy categories present in the
data, with "Frequently Used" kept unconditionally.  The `!isEmpty` conjunct
models the JS truthiness test `if (entry.category)` used when collecting the
category set. -/
def collectCategories (emojiData : List EmojiRecord) : List (List Char) :=
  orderedCategories.filter (fun cat =>
    decide (cat = catFrequentlyUsed) ||
      emojiData.any (fun e => !e.category.isEmpty && decide (e.category = cat)))

theorem truthy_and_eq (c : List Char) (hcne : c ≠ []) (s : List Char) :
    (!s.isEmpty && decide (s = c)) = decide (s = c) := by
  by_cases h : s = c
  · subst h
    have : s.isEmpty = false := by
      cases s with
      | nil => exact absurd rfl hcne
      | cons a l => rfl
    simp [this]
  · simp [h]

/-- C4: `collectCategories` returns exactly the subset of the fixed
predefined ordering whose categories have at least one record in the dataset,
in that predefined order, with "Frequently Used" prepended unconditionally;
any category it returns is either the synthetic one or a predefined category
present in the dataset. -/
theorem collectCategories_spec (data : List EmojiRecord) (c : List Char)
    (hc : c ∈ collectCategories data) :
    collectCategories data =
      catFrequentlyUsed ::
        (orderedCategories.tail.filter
          (fun cat => data.any (fun e => decide (e.category = cat)))) ∧
    (c = catFrequentlyUsed ∨
      (c ∈ orderedCategories ∧ ∃ e ∈ data, e.category = c)) := by
  constructor
  · have hsplit : orderedCategories = catFrequentlyUsed :: orderedCategories.tail := rfl
    rw [collectCategories, hsplit, List.filter_cons_of_pos (by simp)]
    congr 1
    apply List.filter_congr
    intro cat hcat
    have hprops : ∀ x ∈ orderedCategories.tail,
        x ≠ catFrequentlyUsed ∧ x ≠ ([] : List Char) := by decide
    obtain ⟨hne, hnil⟩ := hprops cat hcat
    have hfun : (fun e : EmojiRecord => !e.category.isEmpty && decide (e.category = cat)) =
        (fun e : EmojiRecord => decide (e.category = cat)) :=
      funext (fun e => truthy_and_eq cat hnil e.category)
    rw [hfun]
    simp [hne]
  · rcases List.mem_filter.1 hc with ⟨hmem, hp⟩
    rw [Bool.or_eq_true] at hp
    rcases hp with h1 | h2
    · exact Or.inl (of_decide_eq_true h1)
    · rcases List.any_eq_true.1 h2 with ⟨e, he, hpe⟩
      rw [Bool.and_eq_true] at hpe
      obtain ⟨_, heq⟩ := hpe
      exact Or.inr ⟨hmem, e, he, of_decide_eq_true heq⟩

/-- Witness for `collectCategories_spec` at a concrete dataset and category. -/
theorem collectCategories_spec_witness :
    catFrequentlyUsed ∈ collectCategories wData ∧
    (collectCategories wData =
        catFrequentlyUsed ::
          (orderedCategories.tail.filter
            (fun cat => wData.any (fun e => decide (e.category = cat)))) ∧
      (catFrequentlyUsed = catFrequentlyUsed ∨
        (catFrequentlyUsed ∈ orderedCategories ∧
          ∃ e ∈ wData, e.category = catFrequentlyUsed))) :=
  ⟨by decide, collectCategories_spec wData catFrequentlyUsed (by decide)⟩

/-- JS `String.replace(pattern, replacement)` with a string pattern: replace
the FIRST occurrence only; with no occurrence the string is unchanged. -/
def jsReplaceFirst : List Char → List Char → List Char → List Char
  | [], _, _ => []
  | c :: rest, pat, rep =>
    if pat.isPrefixOf (c :: rest) then rep ++ (c :: rest).drop pat.length
    else c :: jsReplaceFirst rest pat rep

/-- The five non-empty Unicode skin-tone modifiers of
`SkinToneSelector.SKIN_TONES` (the `Default` entry has the empty modifier and
is skipped by the strip loop's truthiness test). -/
def SKIN_TONE_MODIFIERS : List Char := ['🏻', '🏼', '🏽', '🏾', '🏿']

/-- The variation selector U+FE0F. -/
def variationSelector : Char := '\uFE0F'

/-- Strip loop of `SkinToneSelector.#applyTone`: for each non-empty tone
modifier, `baseEmoji = baseEmoji.replace(tone.modifier, '')` — removing only
the first occurrence of each. -/
def stripTones (emoji : List Char) : List Char :=
  SKIN_TONE_MODIFIERS.foldl (fun acc t => jsReplaceFirst acc [t] []) emoji

/-- Embedding of `SkinToneSelector.#applyTone(emoji, modifier)`. -/
def applyTone (emoji modifier : List Char) : List Char :=
  if modifier.isEmpty then emoji
  else
    let baseEmoji := stripTones emoji
    if baseEmoji.contains variationSelector then
      jsReplaceFirst baseEmoji [variationSelector] (modifier ++ [variationSelector])
    else baseEmoji ++ modifier

theorem jsReplaceFirst_not_mem (t : Char) (rep : List Char) :
    ∀ s : List Char, t ∉ s → jsReplaceFirst s [t] rep = s := by
  intro s
  induction s with
  | nil => intro _; rfl
  | cons c cs ih =>
    intro h
    have hct : ¬(t = c) := fun habs => h (habs ▸ List.mem_cons_self _ _)
    have hpre : ([t].isPrefixOf (c :: cs)) = false := by
      simp [List.isPrefixOf, hct]
    rw [jsReplaceFirst, hpre]
    simp only [Bool.false_eq_true, if_false, List.cons.injEq, true_and]
    exact ih (fun hmem => h (List.mem_cons_of_mem _ hmem))

theorem jsReplaceFirst_first_occ (t : Char) (rep b : List Char) :
    ∀ a : List Char, t ∉ a →
      jsReplaceFirst (a ++ t :: b) [t] rep = a ++ rep ++ b := by
  intro a
  induction a with
  | nil =>
    intro _
    have hpre : ([t].isPrefixOf (t :: b)) = true := by simp [List.isPrefixOf]
    rw [List.nil_append, jsReplaceFirst, hpre]
    simp
  | cons c cs ih =>
    intro h
    have hct : ¬(t = c) := fun habs => h (habs ▸ List.mem_cons_self _ _)
    have hpre : ([t].isPrefixOf (c :: (cs ++ t :: b))) = false := by
      simp [List.isPrefixOf, hct]
    rw [List.cons_append, jsReplaceFirst, hpre]
    simp only [Bool.false_eq_true, if_false, List.cons_append, List.cons.injEq,
      true_and]
    exact ih (fun hmem => h (List.mem_cons_of_mem _ hmem))

theorem exists_first_occ (c : Char) :
    ∀ l : List Char, c ∈ l → ∃ l1 l2, l = l1 ++ c :: l2 ∧ c ∉ l1 := by
  intro l
  induction l with
  | nil => intro h; cases h
  | cons x xs ih =>
    intro h
    by_cases hx : c = x
    · subst hx
      exact ⟨[], xs, rfl, List.not_mem_nil c⟩
    · rcases List.mem_cons.1 h with h1 | h2
      · exact absurd h1 hx
      · obtain ⟨l1, l2, hsplit, hnot⟩ := ih h2
        refine ⟨x :: l1, l2, by rw [hsplit]; rfl, ?_⟩
        intro habs
        rcases List.mem_cons.1 habs with h3 | h4
        · exact hx h3
        · exact hnot h4

theorem foldl_strip_no_occ :
    ∀ (L : List Char) (s : List Char), (∀ t ∈ L, t ∉ s) →
      L.foldl (fun acc t => jsReplaceFirst acc [t] []) s = s := by
  intro L
  induction L with
  | nil => intro s _; rfl
  | cons t ts ih =>
    intro s h
    rw [List.foldl_cons, jsReplaceFirst_not_mem t [] s (h t (List.mem_cons_self _ _))]
    exact ih s (fun u hu => h u (List.mem_cons_of_mem _ hu))

theorem foldl_strip_insert (T : Char) (hT : T ∈ SKIN_TONE_MODIFIERS)
    (a b : List Char) (hab : ∀ t ∈ SKIN_TONE_MODIFIERS, t ∉ a ++ b) :
    SKIN_TONE_MODIFIERS.foldl (fun acc t => jsReplaceFirst acc [t] [])
      (a ++ T :: b) = a ++ b := by
  obtain ⟨L1, L2, hL, hTnot⟩ := exists_first_occ T SKIN_TONE_MODIFIERS hT
  rw [hL, List.foldl_append, List.foldl_cons]
  have hmemL : ∀ t, t ∈ L1 ∨ t ∈ L2 → t ∈ SKIN_TONE_MODIFIERS := by
    intro t ht
    rw [hL]
    rcases ht with h1 | h2
    · exact List.mem_append_left _ h1
    · exact List.mem_append_right _ (List.mem_cons_of_mem _ h2)
  have h1 : L1.foldl (fun acc t => jsReplaceFirst acc [t] []) (a ++ T :: b) =
      a ++ T :: b := by
    apply foldl_strip_no_occ
    intro t ht
    have hne : t ≠ T := fun habs => hTnot (habs ▸ ht)
    have hnab : t ∉ a ++ b := hab t (hmemL t (Or.inl ht))
    intro habs
    rcases List.mem_append.1 habs with h2 | h3
    · exact hnab (List.mem_append_left _ h2)
    · rcases List.mem_cons.1 h3 with h4 | h5
      · exact hne h4
      · exact hnab (List.mem_append_right _ h5)
  rw [h1]
  have hTa : T ∉ a := by
    intro habs
    exact hab T hT (List.mem_append_left _ habs)
  rw [jsReplaceFirst_first_occ T [] b a hTa]
  simp only [List.append_nil, List.nil_append, List.append_assoc]
  apply foldl_strip_no_occ
  intro t ht
  exact hab t (hmemL t (Or.inr ht))

theorem applyTone_of_split (g : List Char) (T : Char) (s1 s2 : List Char)
    (hsplit : stripTones g = s1 ++ variationSelector :: s2)
    (hvs1 : variationSelector ∉ s1) :
    applyTone g [T] = s1 ++ T :: variationSelector :: s2 := by
  have hcontains : (stripTones g).contains variationSelector = true := by
    apply List.elem_iff.2
    rw [hsplit]
    exact List.mem_append_right _ (List.mem_cons_self _ _)
  rw [applyTone]
  simp only [List.isEmpty_cons, Bool.false_eq_true, if_false, hcontains, if_pos]
  rw [hsplit, jsReplaceFirst_first_occ variationSelector
    ([T] ++ [variationSelector]) s2 s1 hvs1]
  simp

theorem applyTone_of_noVS (g : List Char) (T : Char)
    (h : variationSelector ∉ stripTones g) :
    applyTone g [T] = stripTones g ++ [T] := by
  have hcontains : (stripTones g).contains variationSelector = false := by
    cases hc : (stripTones g).contains variationSelector with
    | false => rfl
    | true => exact absurd (List.elem_iff.1 hc) h
  rw [applyTone]
  simp only [List.isEmpty_cons, Bool.false_eq_true, if_false, hcontains]

/-- C5 (amended): for every glyph whose tone-stripped form contains no
remaining tone modifier (true in particular whenever each of the five
modifiers occurs at most once in the glyph — real emoji can carry the same
modifier twice, which breaks the original claim), applying tone T then tone
T2 equals applying T2 directly: the strip removes the modifier the first
application inserted, and the insertion point (before the first variation
selector, or at the end) is unchanged. -/
theorem applyTone_replace_not_stack (g : List Char) (T T2 : Char)
    (hT : T ∈ SKIN_TONE_MODIFIERS) (hT2 : T2 ∈ SKIN_TONE_MODIFIERS)
    (hclean : ∀ t ∈ SKIN_TONE_MODIFIERS, t ∉ stripTones g) :
    applyTone (applyTone g [T]) [T2] = applyTone g [T2] := by
  by_cases hvs : variationSelector ∈ stripTones g
  · obtain ⟨s1, s2, hsplit, hvs1⟩ := exists_first_occ _ _ hvs
    have hab : ∀ t ∈ SKIN_TONE_MODIFIERS, t ∉ s1 ++ variationSelector :: s2 := by
      rw [← hsplit]; exact hclean
    have h1 : applyTone g [T] = s1 ++ T :: variationSelector :: s2 :=
      applyTone_of_split g T s1 s2 hsplit hvs1
    have hstrip1 : stripTones (applyTone g [T]) = s1 ++ variationSelector :: s2 := by
      rw [h1]
      exact foldl_strip_insert T hT s1 (variationSelector :: s2) hab
    have h2 : applyTone (applyTone g [T]) [T2] = s1 ++ T2 :: variationSelector :: s2 :=
      applyTone_of_split _ T2 s1 s2 hstrip1 hvs1
    rw [h2, applyTone_of_split g T2 s1 s2 hsplit hvs1]
  · have h1 : applyTone g [T] = stripTones g ++ [T] := applyTone_of_noVS g T hvs
    have hstrip1 : stripTones (applyTone g [T]) = stripTones g := by
      rw [h1]
      have hins := foldl_strip_insert T hT (stripTones g) [] (by simpa using hclean)
      rw [stripTones]
      simpa using hins
    have h2 : applyTone (applyTone g [T]) [T2] =
        stripTones (applyTone g [T]) ++ [T2] :=
      applyTone_of_noVS _ T2 (by rw [hstrip1]; exact hvs)
    rw [h2, hstrip1, applyTone_of_noVS g T2 hvs]

/-- Witness for `applyTone_replace_not_stack`: the waving-hand glyph with
tones Light then Medium equals Medium applied directly. -/
theorem applyTone_replace_not_stack_witness :
    ('🏻' ∈ SKIN_TONE_MODIFIERS ∧ '🏽' ∈ SKIN_TONE_MODIFIERS ∧
      (∀ t ∈ SKIN_TONE_MODIFIERS, t ∉ stripTones ['👋'])) ∧
    applyTone (applyTone ['👋'] ['🏻']) ['🏽'] = applyTone ['👋'] ['🏽'] :=
  ⟨⟨by decide, by decide, by decide⟩,
   applyTone_replace_not_stack ['👋'] '🏻' '🏽' (by decide) (by decide) (by decide)⟩

/-- C5 counterexample: a glyph carrying the Light modifier twice (as real
multi-person emoji do).  Applying Medium-Light then Medium removes the
leftover Light modifier as well, while applying Medium directly keeps it, so
the claim as stated — quantified over every glyph — is false. -/
theorem applyTone_stack_counterexample :
    (['🏼'] : List Char) ≠ ['🏽'] ∧
    applyTone (applyTone ['🏻', '🏻'] ['🏼']) ['🏽'] ≠
      applyTone ['🏻', '🏻'] ['🏽'] := by
  constructor
  · decide
  · decide

/-- C10 (amended): selecting the Default option (empty modifier) returns the
glyph completely unchanged — existing tone modifiers are NOT stripped — while
a non-empty modifier removes the FIRST occurrence of each of the five tone
modifiers (not every occurrence) before inserting the new one: whenever that
strip leaves no tone modifier behind (in particular when each occurs at most
once), the result carries the new modifier and no other tone modifier. -/
theorem applyTone_default_and_strip (g : List Char) (T : Char)
    (hT : T ∈ SKIN_TONE_MODIFIERS)
    (hclean : ∀ t ∈ SKIN_TONE_MODIFIERS, t ∉ stripTones g) :
    applyTone g [] = g ∧
    T ∈ applyTone g [T] ∧
    ∀ t ∈ SKIN_TONE_MODIFIERS, t ≠ T → t ∉ applyTone g [T] := by
  have hmem : T ∈ applyTone g [T] ∧
      ∀ t ∈ SKIN_TONE_MODIFIERS, t ≠ T → t ∉ applyTone g [T] := by
    by_cases hvs : variationSelector ∈ stripTones g
    · obtain ⟨s1, s2, hsplit, hvs1⟩ := exists_first_occ _ _ hvs
      rw [applyTone_of_split g T s1 s2 hsplit hvs1]
      constructor
      · exact List.mem_append_right _ (List.mem_cons_self _ _)
      · intro t ht hne habs
        have hclean' : t ∉ s1 ++ variationSelector :: s2 := by
          have hx := hclean t ht
          rw [hsplit] at hx
          exact hx
        rcases List.mem_append.1 habs with h1 | h2
        · exact hclean' (List.mem_append_left _ h1)
        · rcases List.mem_cons.1 h2 with h3 | h4
          · exact hne h3
          · exact hclean' (List.mem_append_right _ h4)
    · rw [applyTone_of_noVS g T hvs]
      constructor
      · exact List.mem_append_right _ (List.mem_cons_self _ _)
      · intro t ht hne habs
        rcases List.mem_append.1 habs with h1 | h2
        · exact hclean t ht h1
        · rcases List.mem_cons.1 h2 with h3 | h4
          · exact hne h3
          · cases h4
  exact ⟨rfl, hmem.1, hmem.2⟩

/-- C10 counterexample: on a glyph carrying the Light modifier twice, a
non-empty modifier strips only the first occurrence, so a pre-existing tone
modifier survives in the output — the claim that all existing tone modifiers
are stripped first is false. -/
theorem applyTone_strip_all_counterexample :
    applyTone ['🏻', '🏻'] ['🏼'] = ['🏻', '🏼'] ∧
    '🏻' ∈ applyTone ['🏻', '🏻'] ['🏼'] :=
  ⟨by decide, by decide⟩

/-- Witness for `applyTone_default_and_strip` at the thumbs-up glyph with the
Dark modifier. -/
theorem applyTone_default_and_strip_witness :
    ('🏿' ∈ SKIN_TONE_MODIFIERS ∧
      ∀ t ∈ SKIN_TONE_MODIFIERS, t ∉ stripTones ['👍']) ∧
    (applyTone ['👍'] [] = ['👍'] ∧ '🏿' ∈ applyTone ['👍'] ['🏿'] ∧
      ∀ t ∈ SKIN_TONE_MODIFIERS, t ≠ '🏿' → t ∉ applyTone ['👍'] ['🏿']) :=
  ⟨⟨by decide, by decide⟩,
   applyTone_default_and_strip ['👍'] '🏿' (by decide) (by decide)⟩

/-- Constant `CATEGORY_SCROLL_THRESHOLD` from `core/constants.js`. -/
def CATEGORY_SCROLL_THRESHOLD : Int := 30

/-- One candidate-scan step state: the best `(category, distance)` found so
far (`activeCategory` and `minDistance` in `#onScroll`; `none` models the
initial `null` / `Infinity` pair). -/
def betterDist (d : Int) : Option (List Char × Int) → Bool
  | none => true
  | some b => decide (d < b.2)

/-- The candidate scan of `CategoryManager.#onScroll`: iterate the
registered sections in insertion order; a section whose top offset satisfies
`sectionY <= scrollY + THRESHOLD` and `distance = scrollY - sectionY >= 0`
replaces the best candidate when its distance is strictly smaller. -/
def scrollScan (y : Int) : List (List Char × Int) → Option (List Char × Int) →
    Option (List Char × Int)
  | [], best => best
  | (cat, sy) :: rest, best =>
    if decide (sy ≤ y + CATEGORY_SCROLL_THRESHOLD) && decide (0 ≤ y - sy) &&
        betterDist (y - sy) best then
      scrollScan y rest (some (cat, y - sy))
    else scrollScan y rest best

/-- State of the `CategoryManager` (the claim's transition system): built tab
keys in insertion order, registered sections with their header offsets, and
the current category. -/
structure CatState where
  buttons : List (List Char)
  sections : List (List Char × Int)
  current : List Char
deriving DecidableEq, Repr

/-- Number of tabs `updateCategoryStates` marks active: the buttons whose
category equals `this.#currentCategory`. -/
def activeCount (s : CatState) : Nat :=
  (s.buttons.filter (fun b => b == s.current)).length

/-- Transition for a tab click (`setCategory`): set the current category and
re-highlight.  (The scroll command it also issues does not touch the active
marking.) -/
def clickCat (s : CatState) (c : List Char) : CatState := { s with current := c }

/-- Transition for a user scroll (`#onScroll`): pick the nearest section
at-or-above the viewport top; transition only when a candidate exists, is
truthy (non-empty name) and differs from the current category. -/
def onScrollStep (s : CatState) (y : Int) : CatState :=
  match scrollScan y s.sections none with
  | some (cat, _) =>
    if cat ≠ [] ∧ cat ≠ s.current then { s with current := cat } else s
  | none => s

/-- A settled transition of the category controller. -/
inductive CatEvent where
  | click : List Char → CatEvent
  | scroll : Int → CatEvent
deriving DecidableEq, Repr

/-- Step function over category-controller transitions. -/
def catStep (s : CatState) : CatEvent → CatState
  | .click c => clickCat s c
  | .scroll y => onScrollStep s y

/-- Concrete controller state for the counterexample: tabs built from the
predefined categories, but a section registered for a category outside the
predefined list (the renderer registers a section for every non-empty
rendered category, including `Other`, which `collectCategories` never puts
in the tab strip). -/
def cexCatState : CatState :=
  ⟨[catFrequentlyUsed, "Smileys & Emotion".toList],
   [("Other".toList, 0)], catFrequentlyUsed⟩

/-- C6 counterexample: a scroll-driven transition to a registered section
whose category has no tab leaves ZERO tabs marked active, refuting the claim
that exactly one tab is active after every settled transition. -/
theorem categoryActive_counterexample :
    activeCount (catStep cexCatState (.scroll 0)) = 0 := by decide

theorem scrollScan_mem (y : Int) :
    ∀ (l : List (List Char × Int)) (best : Option (List Char × Int))
      (cat : List Char) (d : Int),
      scrollScan y l best = some (cat, d) →
      cat ∈ l.map Prod.fst ∨ best = some (cat, d) := by
  intro l
  induction l with
  | nil => intro best cat d h; exact Or.inr h
  | cons p rest ih =>
    intro best cat d h
    obtain ⟨pc, py⟩ := p
    rw [scrollScan] at h
    by_cases hcond : (decide (py ≤ y + CATEGORY_SCROLL_THRESHOLD) &&
        decide (0 ≤ y - py) && betterDist (y - py) best) = true
    · rw [if_pos hcond] at h
      rcases ih _ cat d h with h1 | h2
      · exact Or.inl (List.mem_cons_of_mem _ h1)
      · injection h2 with h3
        injection h3 with h4 h5
        exact Or.inl (h4 ▸ List.mem_cons_self _ _)
    · rw [if_neg hcond] at h
      rcases ih _ cat d h with h1 | h2
      · exact Or.inl (List.mem_cons_of_mem _ h1)
      · exact Or.inr h2

theorem catStep_buttons (s : CatState) (ev : CatEvent) :
    (catStep s ev).buttons = s.buttons ∧ (catStep s ev).sections = s.sections := by
  cases ev with
  | click c => exact ⟨rfl, rfl⟩
  | scroll y =>
    show (onScrollStep s y).buttons = _ ∧ (onScrollStep s y).sections = _
    rw [onScrollStep]
    cases scrollScan y s.sections none with
    | none => exact ⟨rfl, rfl⟩
    | some p =>
      obtain ⟨cat, d⟩ := p
      by_cases hc : cat ≠ [] ∧ cat ≠ s.current
      · simp [hc]
      · simp [hc]

theorem catStep_current_mem (s : CatState) (ev : CatEvent)
    (hcur : s.current ∈ s.buttons)
    (hsec : ∀ p ∈ s.sections, p.1 ∈ s.buttons)
    (hclick : ∀ c, ev = CatEvent.click c → c ∈ s.buttons) :
    (catStep s ev).current ∈ s.buttons := by
  cases ev with
  | click c => exact hclick c rfl
  | scroll y =>
    show (onScrollStep s y).current ∈ s.buttons
    rw [onScrollStep]
    cases hscan : scrollScan y s.sections none with
    | none => exact hcur
    | some p =>
      obtain ⟨cat, d⟩ := p
      show (if cat ≠ [] ∧ cat ≠ s.current then
          { s with current := cat } else s).current ∈ s.buttons
      by_cases hc : cat ≠ [] ∧ cat ≠ s.current
      · rw [if_pos hc]
        show cat ∈ s.buttons
        rcases scrollScan_mem y s.sections none cat d hscan with h1 | h2
        · rcases List.mem_map.1 h1 with ⟨q, hq, hq1⟩
          exact hq1 ▸ hsec q hq
        · cases h2
      · rw [if_neg hc]
        exact hcur

theorem filter_beq_length_one (l : List (List Char)) (c : List Char)
    (hnd : l.Nodup) (hc : c ∈ l) :
    (l.filter (fun b => b == c)).length = 1 := by
  induction l with
  | nil => cases hc
  | cons x xs ih =>
    rw [List.nodup_cons] at hnd
    rcases List.mem_cons.1 hc with heq | hmem
    · subst heq
      rw [List.filter_cons_of_pos (by simp)]
      have hnil : xs.filter (fun b => b == c) = [] := by
        apply List.filter_eq_nil_iff.2
        intro a ha
        simp only [beq_iff_eq]
        intro habs
        exact hnd.1 (habs ▸ ha)
      rw [hnil]
      rfl
    · have hxc : (x == c) = false := beq_eq_false_iff_ne.2
        (fun habs => hnd.1 (habs ▸ hmem))
      rw [List.filter_cons_of_neg (by simp [hxc])]
      exact ih hnd.2 hmem

/-- C6 (amended): provided every registered section's category is among the
built tabs and the current category starts among the tabs — which holds in
the extension's wiring whenever the dataset uses only the predefined
categories, since the tab strip is `collectCategories` output — every
sequence of settled transitions (clicks on built tabs, scroll-driven
changes) leaves exactly one tab marked active; a scroll transition to a
section category without a tab instead leaves zero tabs active. -/
theorem categoryActive_invariant (s : CatState) (evs : List CatEvent)
    (hnd : s.buttons.Nodup) (hcur : s.current ∈ s.buttons)
    (hsec : ∀ p ∈ s.sections, p.1 ∈ s.buttons)
    (hclick : ∀ c, CatEvent.click c ∈ evs → c ∈ s.buttons) :
    activeCount (evs.foldl catStep s) = 1 := by
  have main : ∀ (evs : List CatEvent) (s : CatState),
      s.buttons.Nodup → s.current ∈ s.buttons →
      (∀ p ∈ s.sections, p.1 ∈ s.buttons) →
      (∀ c, CatEvent.click c ∈ evs → c ∈ s.buttons) →
      activeCount (evs.foldl catStep s) = 1 := by
    intro evs
    induction evs with
    | nil =>
      intro s hnd hcur _ _
      show activeCount s = 1
      rw [activeCount]
      exact filter_beq_length_one s.buttons s.current hnd hcur
    | cons ev rest ih =>
      intro s hnd hcur hsec hclick
      rw [List.foldl_cons]
      obtain ⟨hbtn, hsect⟩ := catStep_buttons s ev
      apply ih (catStep s ev)
      · rw [hbtn]; exact hnd
      · rw [hbtn]
        exact catStep_current_mem s ev hcur hsec
          (fun c hc => hclick c (hc ▸ List.mem_cons_self _ _))
      · rw [hbtn, hsect]; exact hsec
      · intro c hc
        rw [hbtn]
        exact hclick c (List.mem_cons_of_mem _ hc)
  exact main evs s hnd hcur hsec hclick

/-- Well-wired controller state for the invariant witness. -/
def wCatState : CatState :=
  ⟨[catFrequentlyUsed, "Smileys & Emotion".toList, "Flags".toList],
   [("Smileys & Emotion".toList, 0), ("Flags".toList, 400)], catFrequentlyUsed⟩

/-- Witness for `categoryActive_invariant`: a click then two scrolls on a
well-wired controller keep exactly one tab active. -/
theorem categoryActive_invariant_witness :
    (wCatState.buttons.Nodup ∧ wCatState.current ∈ wCatState.buttons ∧
      (∀ p ∈ wCatState.sections, p.1 ∈ wCatState.buttons) ∧
      (∀ c, CatEvent.click c ∈
          [CatEvent.click ("Flags".toList), CatEvent.scroll 10,
            CatEvent.scroll 500] → c ∈ wCatState.buttons)) ∧
    activeCount ([CatEvent.click ("Flags".toList), CatEvent.scroll 10,
      CatEvent.scroll 500].foldl catStep wCatState) = 1 :=
  ⟨⟨by decide, by decide, by decide, by
      intro c hc
      simp only [List.mem_cons] at hc
      rcases hc with h1 | h2 | h3 | h4
      · injection h1 with h
        subst h
        decide
      · cases h2
      · cases h3
      · cases h4⟩,
   categoryActive_invariant wCatState
     [CatEvent.click ("Flags".toList), CatEvent.scroll 10, CatEvent.scroll 500]
     (by decide) (by decide) (by decide) (by
      intro c hc
      simp only [List.mem_cons] at hc
      rcases hc with h1 | h2 | h3 | h4
      · injection h1 with h
        subst h
        decide
      · cases h2
      · cases h3
      · cases h4)⟩

/-- State of the guarded `CategoryManager` variant: the active category, the
`#programmaticScroll` flag, and the registered sections. -/
structure GuardState where
  current : List Char
  programmaticScroll : Bool
  sections : List (List Char × Int)
deriving DecidableEq, Repr

/-- Effect of `setCategory(category)` before its timers run: the current
category is set immediately and the highlighting is recomputed; exactly one
scroll timer is scheduled (modelled as the following `guardScrollCmd`
event). -/
def guardClick (s : GuardState) (c : List Char) : GuardState :=
  { s with current := c }

/-- The 50 ms scroll timer of the guarded `setCategory` fires: when the
clicked category has a registered section, `#programmaticScroll` is set to
true, the single `set_value` scroll command is issued, and a 150 ms timer is
scheduled to clear the flag (modelled as the `guardExpire` event). -/
def guardScrollCmd (s : GuardState) (c : List Char) : GuardState :=
  match s.sections.find? (fun p => p.1 == c) with
  | some _ => { s with programmaticScroll := true }
  | none => s

/-- Guarded `#onScroll`: return immediately while `#programmaticScroll` is
set, otherwise run the candidate scan as in the unguarded variant. -/
def guardOnScroll (s : GuardState) (y : Int) : GuardState :=
  if s.programmaticScroll then s
  else
    match scrollScan y s.sections none with
    | some (cat, _) =>
      if cat ≠ [] ∧ cat ≠ s.current then { s with current := cat } else s
    | none => s

/-- The 150 ms guard timer fires: scroll handling resumes. -/
def guardExpire (s : GuardState) : GuardState :=
  { s with programmaticScroll := false }

theorem guardOnScroll_of_flag (s : GuardState) (y : Int)
    (h : s.programmaticScroll = true) : guardOnScroll s y = s := by
  rw [guardOnScroll, if_pos h]

/-- C7: after a tab click sets the active category and its scroll timer
issues the single programmatic scroll command (which requires the clicked
category to have a registered section), the guard flag is set; every scroll
position change processed inside the guard window — i.e. before the
`guardExpire` timer fires — leaves the active category unchanged, and when
the guard expires the flag is cleared so only later scroll events can drive
a transition. -/
theorem guardWindow_spec (s : GuardState) (c : List Char) (ys : List Int)
    (hsec : (s.sections.find? (fun p => p.1 == c)).isSome = true) :
    (guardClick s c).current = c ∧
    (guardScrollCmd (guardClick s c) c).programmaticScroll = true ∧
    (ys.foldl guardOnScroll (guardScrollCmd (guardClick s c) c)).current = c ∧
    (guardExpire
      (ys.foldl guardOnScroll
        (guardScrollCmd (guardClick s c) c))).programmaticScroll = false := by
  have hsections : (guardClick s c).sections = s.sections := rfl
  have hflag : (guardScrollCmd (guardClick s c) c).programmaticScroll = true := by
    rw [guardScrollCmd]
    rw [Option.isSome_iff_exists] at hsec
    obtain ⟨p, hp⟩ := hsec
    rw [hsections, hp]
  have hcur : (guardScrollCmd (guardClick s c) c).current = c := by
    rw [guardScrollCmd]
    cases h : (guardClick s c).sections.find? (fun p => p.1 == c) with
    | some p => rfl
    | none => rfl
  have hfold : ∀ (ys : List Int) (t : GuardState), t.programmaticScroll = true →
      ys.foldl guardOnScroll t = t := by
    intro ys
    induction ys with
    | nil => intro t _; rfl
    | cons y rest ih =>
      intro t ht
      rw [List.foldl_cons, guardOnScroll_of_flag t y ht]
      exact ih t ht
  have hfold' := hfold ys _ hflag
  exact ⟨rfl, hflag, by rw [hfold', hcur], rfl⟩

/-- Guard-state instance for the witness. -/
def wGuardState : GuardState :=
  ⟨catFrequentlyUsed, false,
   [("Symbols".toList, 700), ("Flags".toList, 900)]⟩

/-- Witness for `guardWindow_spec`: clicking Symbols, issuing the scroll
command, then three scroll events inside the guard window. -/
theorem guardWindow_spec_witness :
    ((wGuardState.sections.find?
        (fun p => p.1 == "Symbols".toList)).isSome = true) ∧
    ((guardClick wGuardState ("Symbols".toList)).current = "Symbols".toList ∧
     (guardScrollCmd (guardClick wGuardState ("Symbols".toList))
        ("Symbols".toList)).programmaticScroll = true ∧
     (([0, 350, 695] : List Int).foldl guardOnScroll
        (guardScrollCmd (guardClick wGuardState ("Symbols".toList))
          ("Symbols".toList))).current = "Symbols".toList ∧
     (guardExpire
        (([0, 350, 695] : List Int).foldl guardOnScroll
          (guardScrollCmd (guardClick wGuardState ("Symbols".toList))
            ("Symbols".toList)))).programmaticScroll = false) :=
  ⟨by decide,
   guardWindow_spec wGuardState ("Symbols".toList) [0, 350, 695] (by decide)⟩

end Gemoji
